import Mathlib

/-!
Shallow embedding of `src/code/script.c`: a sliding-window maximum over an
integer sequence, implemented with a monotonic deque of indices stored in a
raw array of capacity `n` with `front`/`rear`/`size` cursors.

Memory accesses of the C program (array reads and the write in `pushBack`)
are modelled as checked accesses returning `Option`: `none` means the C
program would access the backing store out of bounds (undefined behaviour).
`popFront`/`popBack` only move cursors, exactly as in C, and are total.
The `printf` output stream is modelled as the list of emitted integers.
-/

/-- The C struct `Deque`: backing array `data`, cursors `front`, `rear`
and the current number of stored elements `size`. -/
structure Deque where
  data : Array Int
  front : Int
  rear : Int
  size : Int
deriving Repr, DecidableEq

/-- `createDeque(capacity)`: fresh array of the given capacity (cells
modelled as zero-initialised; the algorithm never reads an unwritten cell),
`front = 0`, `rear = -1`, `size = 0`. -/
def createDeque (capacity : Nat) : Deque :=
  { data := Array.mkArray capacity 0, front := 0, rear := -1, size := 0 }

/-- `isEmpty(dq)`: `size == 0`. -/
def isEmpty (dq : Deque) : Bool :=
  dq.size == 0

/-- `pushBack(dq, val)`: increment `rear`, write `val` at the new `rear`,
increment `size`.  The write is checked against the capacity. -/
def pushBack (dq : Deque) (val : Int) : Option Deque :=
  if h : 0 ≤ dq.rear + 1 ∧ (dq.rear + 1).toNat < dq.data.size then
    some { dq with data := dq.data.set ⟨(dq.rear + 1).toNat, h.2⟩ val,
                   rear := dq.rear + 1, size := dq.size + 1 }
  else none

/-- `popFront(dq)`: advance `front`, decrement `size` (cursor moves only). -/
def popFront (dq : Deque) : Deque :=
  { dq with front := dq.front + 1, size := dq.size - 1 }

/-- `popBack(dq)`: retreat `rear`, decrement `size` (cursor moves only). -/
def popBack (dq : Deque) : Deque :=
  { dq with rear := dq.rear - 1, size := dq.size - 1 }

/-- `front(dq)`: checked read of `data[front]`. -/
def front (dq : Deque) : Option Int :=
  if h : 0 ≤ dq.front ∧ dq.front.toNat < dq.data.size then
    some (dq.data.get ⟨dq.front.toNat, h.2⟩)
  else none

/-- `back(dq)`: checked read of `data[rear]`. -/
def back (dq : Deque) : Option Int :=
  if h : 0 ≤ dq.rear ∧ dq.rear.toNat < dq.data.size then
    some (dq.data.get ⟨dq.rear.toNat, h.2⟩)
  else none

/-- Checked read `nums[j]` for an index `j` stored as a C `int`. -/
def readNums (nums : List Int) (j : Int) : Option Int :=
  if h : 0 ≤ j ∧ j.toNat < nums.length then
    some (nums.get ⟨j.toNat, h.2⟩)
  else none

/-- The expiry step of iteration `i`:
`if (!isEmpty(dq) && front(dq) <= i - k) popFront(dq);`. -/
def expireStep (k : Int) (i : Nat) (dq : Deque) : Option Deque :=
  if isEmpty dq then some dq
  else
    match front dq with
    | none => none
    | some f => some (if f ≤ (i : Int) - k then popFront dq else dq)

/-- The dominated-eviction loop of iteration `i`:
`while (!isEmpty(dq) && nums[back(dq)] < nums[i]) popBack(dq);`,
written with an explicit iteration bound.  The bound `(rear + 1).toNat`
is exact: every loop iteration decrements `rear` by one, and once `rear`
drops below `0` a further iteration would read `data[rear]` out of bounds,
which is the `none` case of `back` — so an exhausted bound coincides with
an out-of-bounds read and is likewise mapped to `none`. -/
def evictLoop (nums : List Int) (i : Nat) : Nat → Deque → Option Deque
  | 0, dq => if isEmpty dq then some dq else none
  | fuel+1, dq =>
    if isEmpty dq then some dq
    else
      match back dq with
      | none => none
      | some b =>
        match readNums nums b, readNums nums i with
        | some vb, some vi =>
          if vb < vi then evictLoop nums i fuel (popBack dq) else some dq
        | some _, none => none
        | none, _ => none

/-- The dominated-eviction step: run `evictLoop` with its exact bound. -/
def evictDominated (nums : List Int) (i : Nat) (dq : Deque) : Option Deque :=
  evictLoop nums i (dq.rear + 1).toNat dq

/-- The emission step of iteration `i`:
`if (i >= k - 1) printf("%d ", nums[front(dq)]);`,
appending the printed value to the output stream. -/
def emitStep (nums : List Int) (k : Int) (i : Nat) (dq : Deque) (out : List Int) :
    Option (List Int) :=
  if (i : Int) ≥ k - 1 then
    match front dq with
    | none => none
    | some f =>
      match readNums nums f with
      | none => none
      | some v => some (out ++ [v])
  else some out

/-- One iteration of the scan loop of `slidingWindowMaximum`, in the fixed
order of the C source: expiry, dominated eviction, push of `i`, emission. -/
def swmStep (nums : List Int) (k : Int) (i : Nat) (st : Deque × List Int) :
    Option (Deque × List Int) :=
  match expireStep k i st.1 with
  | none => none
  | some dq1 =>
    match evictDominated nums i dq1 with
    | none => none
    | some dq2 =>
      match pushBack dq2 (i : Int) with
      | none => none
      | some dq3 =>
        match emitStep nums k i dq3 st.2 with
        | none => none
        | some out => some (dq3, out)

/-- The scan loop: process `count` consecutive positions starting at `i`. -/
def swmAux (nums : List Int) (k : Int) : Nat → Nat → Deque × List Int →
    Option (Deque × List Int)
  | _, 0, st => some st
  | i, count+1, st =>
    match swmStep nums k i st with
    | none => none
    | some st' => swmAux nums k (i+1) count st'

/-- `slidingWindowMaximum(nums, n, k)` with `n = nums.length`: create a
deque of capacity `n`, scan positions `0 .. n-1`, return the emitted
output stream (`none` if any memory access was out of bounds). -/
def slidingWindowMaximum (nums : List Int) (k : Int) : Option (List Int) :=
  match swmAux nums k 0 nums.length (createDeque nums.length, []) with
  | none => none
  | some st => some st.2

/-- The abstract contents of the deque, front to back: the `size` stored
cells starting at cursor `front` in the backing array. -/
def contents (dq : Deque) : List Int :=
  List.take dq.size.toNat (List.drop dq.front.toNat dq.data.toList)

/-- Total view of `nums[d]` for an index stored as an `Int` (used to state
invariants; on the indices the algorithm actually stores it agrees with the
checked read `readNums`). -/
def valAt (nums : List Int) (d : Int) : Int :=
  nums.getD d.toNat 0

/-- Well-formedness of the raw deque state with capacity `n`: the cursors
and `size` are mutually consistent and inside the capacity. -/
def WF (n : Nat) (dq : Deque) : Prop :=
  dq.data.size = n ∧ 0 ≤ dq.front ∧ 0 ≤ dq.size ∧
    dq.rear = dq.front + dq.size - 1 ∧ dq.rear < (n : Int)

/-- Maximum of a list of integers (`0` for the empty list; every use is on
a non-empty window). -/
def listMax : List Int → Int
  | [] => 0
  | x :: xs => xs.foldl max x

/-- The specified output: one entry per window start `j`, the maximum of
`nums[j .. j+k-1]`. -/
def specOut (nums : List Int) (k : Nat) : List Int :=
  (List.range (nums.length + 1 - k)).map
    (fun j => listMax (List.take k (List.drop j nums)))

/-- A deque operation performed by the scan, recording the stored index it
moves: a push at the back, a pop at the front, or a pop at the back. -/
inductive DqOp where
  | push : Int → DqOp
  | popF : Int → DqOp
  | popB : Int → DqOp
deriving Repr, DecidableEq

/-- Instrumented expiry step: same result as `expireStep`, also reporting
the deque operations performed. -/
def expireStepI (k : Int) (i : Nat) (dq : Deque) : Option (Deque × List DqOp) :=
  if isEmpty dq then some (dq, [])
  else
    match front dq with
    | none => none
    | some f =>
      some (if f ≤ (i : Int) - k then (popFront dq, [DqOp.popF f]) else (dq, []))

/-- Instrumented dominated-eviction loop: same result as `evictLoop`, also
reporting the deque operations performed. -/
def evictLoopI (nums : List Int) (i : Nat) : Nat → Deque →
    Option (Deque × List DqOp)
  | 0, dq => if isEmpty dq then some (dq, []) else none
  | fuel+1, dq =>
    if isEmpty dq then some (dq, [])
    else
      match back dq with
      | none => none
      | some b =>
        match readNums nums b, readNums nums i with
        | some vb, some vi =>
          if vb < vi then
            match evictLoopI nums i fuel (popBack dq) with
            | none => none
            | some (dq', ops) => some (dq', DqOp.popB b :: ops)
          else some (dq, [])
        | some _, none => none
        | none, _ => none

/-- Instrumented dominated-eviction step. -/
def evictDominatedI (nums : List Int) (i : Nat) (dq : Deque) :
    Option (Deque × List DqOp) :=
  evictLoopI nums i (dq.rear + 1).toNat dq

/-- Instrumented scan iteration: same result as `swmStep`, also reporting
the deque operations performed, in order. -/
def swmStepI (nums : List Int) (k : Int) (i : Nat) (st : Deque × List Int) :
    Option ((Deque × List Int) × List DqOp) :=
  match expireStepI k i st.1 with
  | none => none
  | some (dq1, ops1) =>
    match evictDominatedI nums i dq1 with
    | none => none
    | some (dq2, ops2) =>
      match pushBack dq2 (i : Int) with
      | none => none
      | some dq3 =>
        match emitStep nums k i dq3 st.2 with
        | none => none
        | some out => some ((dq3, out), ops1 ++ ops2 ++ [DqOp.push (i : Int)])

/-- Instrumented scan loop, accumulating the operation log. -/
def swmAuxI (nums : List Int) (k : Int) : Nat → Nat → Deque × List Int →
    List DqOp → Option ((Deque × List Int) × List DqOp)
  | _, 0, st, log => some (st, log)
  | i, count+1, st, log =>
    match swmStepI nums k i st with
    | none => none
    | some (st', ops) => swmAuxI nums k (i+1) count st' (log ++ ops)

/-- The indices pushed by a log, in order. -/
def pushesOf (log : List DqOp) : List Int :=
  log.filterMap (fun op => match op with
    | DqOp.push v => some v
    | DqOp.popF _ => none
    | DqOp.popB _ => none)

/-- The indices popped (at either end) by a log, in order. -/
def popsOf (log : List DqOp) : List Int :=
  log.filterMap (fun op => match op with
    | DqOp.push _ => none
    | DqOp.popF v => some v
    | DqOp.popB v => some v)

/-- The loop invariant of the scan, after the first `m` positions have been
processed: the deque is well formed and within its allotted space; its
contents are indices of the current window, strictly increasing, with
non-increasing values; every window position is dominated by a stored index
at or after it; the output stream holds exactly the maxima of the complete
windows seen so far; and the operation log pushes each processed index
exactly once, with pops and current contents accounting for all pushes. -/
structure ScanInv (nums : List Int) (k : Nat) (m : Nat) (dq : Deque)
    (out : List Int) (log : List DqOp) : Prop where
  wf : WF nums.length dq
  hsize : dq.front + dq.size ≤ (m : Int)
  hne : 0 < m → contents dq ≠ []
  hrange : ∀ d ∈ contents dq, 0 ≤ d ∧ (m : Int) - k ≤ d ∧ d < (m : Int)
  hsorted : List.Pairwise (fun a b => a < b) (contents dq)
  hmono : List.Pairwise (fun a b => valAt nums b ≤ valAt nums a) (contents dq)
  hcover : ∀ j : Nat, (m : Int) - k ≤ (j : Int) → j < m →
    ∃ d ∈ contents dq, (j : Int) ≤ d ∧ valAt nums (j : Int) ≤ valAt nums d
  hout : out = (List.range (m + 1 - k)).map
    (fun j => listMax (List.take k (List.drop j nums)))
  hpush : pushesOf log = (List.range m).map (fun j : Nat => (j : Int))
  hops : (popsOf log : Multiset Int) + (contents dq : Multiset Int) =
    (pushesOf log : Multiset Int)

/-! ### List helpers -/

theorem take_tail_comm {α : Type} (n : Nat) (l : List α) :
    (List.take n l).tail = List.take (n - 1) l.tail := by
  cases n with
  | zero => simp
  | succ m => cases l <;> simp

theorem init_le_foldl_max (xs : List Int) (a : Int) : a ≤ xs.foldl max a := by
  induction xs generalizing a with
  | nil => simp
  | cons y ys ih => exact le_trans (le_max_left a y) (ih (max a y))

theorem foldl_max_le {xs : List Int} {a x : Int} (hx : x = a ∨ x ∈ xs) :
    x ≤ xs.foldl max a := by
  induction xs generalizing a with
  | nil =>
    rcases hx with h | h
    · exact le_of_eq h
    · simp at h
  | cons y ys ih =>
    simp only [List.foldl_cons]
    rcases hx with h | h
    · exact h.le.trans ((le_max_left a y).trans (init_le_foldl_max ys (max a y)))
    · rcases List.mem_cons.mp h with h | h
      · exact h.le.trans ((le_max_right a y).trans (init_le_foldl_max ys (max a y)))
      · exact ih (Or.inr h)

theorem foldl_max_mem (xs : List Int) (a : Int) :
    xs.foldl max a = a ∨ xs.foldl max a ∈ xs := by
  induction xs generalizing a with
  | nil => simp
  | cons y ys ih =>
    simp only [List.foldl_cons]
    rcases ih (max a y) with h | h
    · rcases max_choice a y with hm | hm
      · exact Or.inl (h.trans hm)
      · exact Or.inr (List.mem_cons.mpr (Or.inl (h.trans hm)))
    · exact Or.inr (List.mem_cons.mpr (Or.inr h))

theorem le_listMax {l : List Int} {x : Int} (hx : x ∈ l) : x ≤ listMax l := by
  cases l with
  | nil => simp at hx
  | cons y ys =>
    rcases List.mem_cons.mp hx with h | h
    · exact foldl_max_le (Or.inl h)
    · exact foldl_max_le (Or.inr h)

theorem listMax_mem {l : List Int} (hl : l ≠ []) : listMax l ∈ l := by
  cases l with
  | nil => exact absurd rfl hl
  | cons y ys =>
    rcases foldl_max_mem ys y with h | h
    · exact List.mem_cons.mpr (Or.inl h)
    · exact List.mem_cons.mpr (Or.inr h)

/-! ### Representation lemmas for the raw deque -/

theorem wf_createDeque (n : Nat) : WF n (createDeque n) := by
  refine ⟨by simp [createDeque], by simp [createDeque], by simp [createDeque], ?_, ?_⟩
  · simp [createDeque]
  · simp [createDeque]; omega

theorem contents_createDeque (n : Nat) : contents (createDeque n) = [] := by
  simp [contents, createDeque]

theorem length_contents {n : Nat} {dq : Deque} (hWF : WF n dq) :
    (contents dq).length = dq.size.toNat := by
  obtain ⟨hn, hf, hs, hr, hlt⟩ := hWF
  have hlen : dq.data.toList.length = n := by
    rw [Array.length_toList, hn]
  simp only [contents, List.length_take, List.length_drop, hlen]
  omega

theorem size_pos_of_contents_ne {n : Nat} {dq : Deque} (hWF : WF n dq)
    (hne : contents dq ≠ []) : 0 < dq.size := by
  have hl := length_contents hWF
  have : (contents dq).length ≠ 0 := fun h => hne (List.eq_nil_of_length_eq_zero h)
  omega

theorem getElem_contents {n : Nat} {dq : Deque} (hWF : WF n dq) (t : Nat)
    (ht : t < (contents dq).length)
    (hb : dq.front.toNat + t < dq.data.toList.length) :
    (contents dq)[t] = dq.data.toList[dq.front.toNat + t] := by
  simp only [contents, List.getElem_take, List.getElem_drop]

theorem front_eq {n : Nat} {dq : Deque} (hWF : WF n dq) (hne : contents dq ≠ []) :
    front dq = some ((contents dq).head hne) := by
  obtain ⟨hn, hf, hs, hr, hlt⟩ := hWF
  have hlen : dq.data.toList.length = n := by rw [Array.length_toList, hn]
  have hlc := length_contents ⟨hn, hf, hs, hr, hlt⟩
  have hpos := size_pos_of_contents_ne ⟨hn, hf, hs, hr, hlt⟩ hne
  have hb : 0 ≤ dq.front ∧ dq.front.toNat < dq.data.size := by
    constructor
    · exact hf
    · rw [hn]; omega
  rw [front, dif_pos hb]
  congr 1
  rw [Array.get_eq_getElem, Array.getElem_eq_getElem_toList, List.head_eq_getElem]
  rw [getElem_contents ⟨hn, hf, hs, hr, hlt⟩ 0 (by omega) (by rw [hlen]; omega)]
  simp

theorem back_eq {n : Nat} {dq : Deque} (hWF : WF n dq) (hne : contents dq ≠ []) :
    back dq = some ((contents dq).getLast hne) := by
  obtain ⟨hn, hf, hs, hr, hlt⟩ := hWF
  have hlen : dq.data.toList.length = n := by rw [Array.length_toList, hn]
  have hlc := length_contents ⟨hn, hf, hs, hr, hlt⟩
  have hpos := size_pos_of_contents_ne ⟨hn, hf, hs, hr, hlt⟩ hne
  have hb : 0 ≤ dq.rear ∧ dq.rear.toNat < dq.data.size := by
    constructor
    · omega
    · rw [hn]; omega
  rw [back, dif_pos hb]
  congr 1
  rw [Array.get_eq_getElem, Array.getElem_eq_getElem_toList, List.getLast_eq_getElem]
  rw [getElem_contents ⟨hn, hf, hs, hr, hlt⟩ ((contents dq).length - 1) (by omega)
    (by rw [hlen]; omega)]
  have hidx : dq.rear.toNat = dq.front.toNat + ((contents dq).length - 1) := by omega
  simp only [Fin.getElem_fin, hidx]

theorem wf_popFront {n : Nat} {dq : Deque} (hWF : WF n dq) (hpos : 0 < dq.size) :
    WF n (popFront dq) := by
  obtain ⟨hn, hf, hs, hr, hlt⟩ := hWF
  refine ⟨by simp only [popFront]; exact hn, by simp only [popFront]; omega,
    by simp only [popFront]; omega, by simp only [popFront]; omega,
    by simp only [popFront]; omega⟩

theorem contents_popFront {n : Nat} {dq : Deque} (hWF : WF n dq) :
    contents (popFront dq) = (contents dq).tail := by
  obtain ⟨hn, hf, hs, hr, hlt⟩ := hWF
  simp only [contents, popFront]
  have h1 : (dq.size - 1).toNat = dq.size.toNat - 1 := by omega
  have h2 : (dq.front + 1).toNat = dq.front.toNat + 1 := by omega
  rw [take_tail_comm, List.tail_drop, h1, h2]

theorem wf_popBack {n : Nat} {dq : Deque} (hWF : WF n dq) (hpos : 0 < dq.size) :
    WF n (popBack dq) := by
  obtain ⟨hn, hf, hs, hr, hlt⟩ := hWF
  refine ⟨by simp only [popBack]; exact hn, by simp only [popBack]; omega,
    by simp only [popBack]; omega, by simp only [popBack]; omega,
    by simp only [popBack]; omega⟩

theorem contents_popBack {n : Nat} {dq : Deque} (hWF : WF n dq) :
    contents (popBack dq) = (contents dq).dropLast := by
  obtain ⟨hn, hf, hs, hr, hlt⟩ := hWF
  have hlen : dq.data.toList.length = n := by rw [Array.length_toList, hn]
  have h1 : (dq.size - 1).toNat = dq.size.toNat - 1 := by omega
  have hlen2 : (List.take dq.size.toNat (List.drop dq.front.toNat dq.data.toList)).length
      = dq.size.toNat := by
    simp only [List.length_take, List.length_drop, hlen]
    omega
  simp only [contents, popBack]
  rw [h1, List.dropLast_eq_take, hlen2, List.take_take]
  congr 1
  omega

theorem pushBack_ok {n : Nat} {dq : Deque} (hWF : WF n dq)
    (hroom : dq.rear + 1 < (n : Int)) (v : Int) :
    ∃ dq', pushBack dq v = some dq' ∧ WF n dq' ∧
      contents dq' = contents dq ++ [v] ∧ dq'.front = dq.front ∧
      dq'.size = dq.size + 1 ∧ dq'.rear = dq.rear + 1 := by
  obtain ⟨hn, hf, hs, hr, hlt⟩ := hWF
  have hlen : dq.data.toList.length = n := by rw [Array.length_toList, hn]
  have hb : 0 ≤ dq.rear + 1 ∧ (dq.rear + 1).toNat < dq.data.size :=
    ⟨by omega, by rw [hn]; omega⟩
  have hlc : (contents dq).length = dq.size.toNat :=
    length_contents ⟨hn, hf, hs, hr, hlt⟩
  refine ⟨_, by rw [pushBack, dif_pos hb], ⟨?_, ?_, ?_, ?_, ?_⟩, ?_, ?_, ?_, ?_⟩
  · simp only [Array.size_set]; exact hn
  · exact hf
  · show (0:Int) ≤ dq.size + 1
    omega
  · show dq.rear + 1 = dq.front + (dq.size + 1) - 1
    omega
  · show dq.rear + 1 < (n : Int)
    omega
  · apply List.ext_getElem
    · simp only [contents, Array.toList_set, List.length_append, List.length_take,
        List.length_drop, List.length_set, List.length_singleton, hlen]
      omega
    · intro t h1 h2
      simp only [contents, Array.toList_set, List.getElem_take, List.getElem_drop,
        List.getElem_set]
      simp only [contents, List.length_take, List.length_drop, List.length_append,
        List.length_singleton, List.length_set, hlen] at h1 h2
      by_cases ht : t < dq.size.toNat
      · have hlt1 : t <
            (List.take dq.size.toNat (List.drop dq.front.toNat dq.data.toList)).length := by
          simp only [List.length_take, List.length_drop, hlen]
          omega
        rw [List.getElem_append_left hlt1, if_neg (by omega)]
        simp only [List.getElem_take, List.getElem_drop]
      · have hge :
            (List.take dq.size.toNat (List.drop dq.front.toNat dq.data.toList)).length ≤ t := by
          simp only [List.length_take, List.length_drop, hlen]
          omega
        rw [List.getElem_append_right hge, if_pos (by omega)]
        simp
  · rfl
  · rfl
  · rfl

theorem readNums_eq {nums : List Int} {j : Int} (h0 : 0 ≤ j)
    (hj : j.toNat < nums.length) :
    readNums nums j = some (valAt nums j) := by
  rw [readNums, dif_pos ⟨h0, hj⟩]
  congr 1
  rw [valAt, List.getD_eq_getElem _ _ hj]
  simp [List.get_eq_getElem]

theorem contents_eq_nil_of_size {n : Nat} {dq : Deque} (hWF : WF n dq)
    (h : dq.size = 0) : contents dq = [] := by
  have := length_contents hWF
  apply List.eq_nil_of_length_eq_zero
  omega

theorem pairwise_head {α : Type} {R : α → α → Prop} {l : List α}
    (hl : l ≠ []) (hp : List.Pairwise R l) :
    ∀ a ∈ l, a = l.head hl ∨ R (l.head hl) a := by
  intro a ha
  have hdec := List.head_cons_tail l hl
  rw [← hdec] at hp ha
  rcases List.mem_cons.mp ha with h | h
  · exact Or.inl h
  · exact Or.inr ((List.pairwise_cons.mp hp).1 a h)

theorem pairwise_getLast {α : Type} {R : α → α → Prop} {l : List α}
    (hl : l ≠ []) (hp : List.Pairwise R l) :
    ∀ a ∈ l, a = l.getLast hl ∨ R a (l.getLast hl) := by
  intro a ha
  have hd : l.dropLast ++ [l.getLast hl] = l := List.dropLast_append_getLast hl
  have hp' : List.Pairwise R (l.dropLast ++ [l.getLast hl]) := by rw [hd]; exact hp
  rw [← hd] at ha
  rcases List.mem_append.mp ha with h | h
  · exact Or.inr ((List.pairwise_append.mp hp').2.2 a h _ (by simp))
  · exact Or.inl (by simpa using h)

/-! ### The expiry step -/

theorem expireStepI_ok {n : Nat} {dq : Deque} {k : Int} {i : Nat}
    (hWF : WF n dq)
    (hsorted : List.Pairwise (fun a b => a < b) (contents dq))
    (hlow : ∀ d ∈ contents dq, (i : Int) - k ≤ d) :
    ∃ dq' ops, expireStepI k i dq = some (dq', ops) ∧ WF n dq' ∧
      (contents dq').Sublist (contents dq) ∧
      (∀ d ∈ contents dq', (i : Int) - k < d) ∧
      (∀ d ∈ contents dq, (i : Int) - k < d → d ∈ contents dq') ∧
      (popsOf ops ++ contents dq').Perm (contents dq) ∧
      pushesOf ops = [] ∧
      dq'.front + dq'.size ≤ dq.front + dq.size ∧ dq'.rear ≤ dq.rear := by
  by_cases hemp : dq.size = 0
  · have hnil : contents dq = [] := contents_eq_nil_of_size hWF hemp
    refine ⟨dq, [], ?_, hWF, List.Sublist.refl _, by rw [hnil]; simp, 
      fun d hd _ => hd, by simp [popsOf], rfl, le_refl _, le_refl _⟩
    rw [expireStepI, if_pos (by simp [isEmpty, hemp])]
  · have hne : contents dq ≠ [] := by
      have hl := length_contents hWF
      intro h
      rw [h] at hl
      simp at hl
      obtain ⟨_, _, hs, _, _⟩ := hWF
      omega
    have hpos : 0 < dq.size := by
      obtain ⟨_, _, hs, _, _⟩ := hWF
      omega
    have hfr := front_eq hWF hne
    have hdec : (contents dq).head hne :: (contents dq).tail = contents dq :=
      List.head_cons_tail _ hne
    rw [expireStepI, if_neg (by simp [isEmpty, hemp]), hfr]
    by_cases hexp : (contents dq).head hne ≤ (i : Int) - k
    · refine ⟨popFront dq, [DqOp.popF ((contents dq).head hne)], by simp [hexp], 
        wf_popFront hWF hpos, ?_, ?_, ?_, ?_, rfl, ?_, ?_⟩
      · rw [contents_popFront hWF]
        exact List.tail_sublist _
      · intro d hd
        rw [contents_popFront hWF] at hd
        have hlt : (contents dq).head hne < d := by
          have hp := hsorted
          rw [← hdec] at hp
          exact (List.pairwise_cons.mp hp).1 d hd
        have := hlow _ (by rw [← hdec]; exact List.mem_cons_self _ _)
        omega
      · intro d hd hgt
        rw [contents_popFront hWF]
        rw [← hdec] at hd
        rcases List.mem_cons.mp hd with h | h
        · rw [h] at hgt
          omega
        · exact h
      · rw [contents_popFront hWF]
        have hpop : popsOf [DqOp.popF ((contents dq).head hne)] =
            [(contents dq).head hne] := rfl
        rw [hpop, List.singleton_append, hdec]
      · simp only [popFront]
        omega
      · simp only [popFront]
        omega
    · refine ⟨dq, [], by simp [hexp], hWF, List.Sublist.refl _, ?_,
        fun d hd _ => hd, by simp [popsOf], rfl, le_refl _, le_refl _⟩
      intro d hd
      rcases pairwise_head hne hsorted d hd with h | h
      · have := hlow _ hd
        omega
      · have := hlow _ (by rw [← hdec]; exact List.mem_cons_self _ _)
        omega

/-! ### The dominated-eviction loop -/

theorem evictLoopI_ok {n : Nat} (nums : List Int) (i : Nat) (hi : i < nums.length) :
    ∀ (fuel : Nat) (dq : Deque), WF n dq → (dq.rear + 1).toNat ≤ fuel →
      (∀ d ∈ contents dq, 0 ≤ d ∧ d < (nums.length : Int)) →
      List.Pairwise (fun a b => valAt nums b ≤ valAt nums a) (contents dq) →
      ∃ dq' ops, evictLoopI nums i fuel dq = some (dq', ops) ∧ WF n dq' ∧
        dq'.front = dq.front ∧
        (∃ rest, contents dq = contents dq' ++ rest ∧
          ∀ b ∈ rest, valAt nums b < valAt nums (i : Int)) ∧
        (∀ a ∈ contents dq', valAt nums (i : Int) ≤ valAt nums a) ∧
        (popsOf ops ++ contents dq').Perm (contents dq) ∧
        pushesOf ops = [] ∧ dq'.front + dq'.size ≤ dq.front + dq.size ∧
        dq'.rear ≤ dq.rear := by
  intro fuel
  induction fuel with
  | zero =>
    intro dq hWF hfuel helem hmono
    have hemp : dq.size = 0 := by
      obtain ⟨hn, hf, hs, hr, hlt⟩ := hWF
      omega
    have hnil : contents dq = [] := contents_eq_nil_of_size hWF hemp
    refine ⟨dq, [], ?_, hWF, rfl, ⟨[], by simp, by simp⟩, by rw [hnil]; simp,
      by simp [popsOf], rfl, le_refl _, le_refl _⟩
    simp only [evictLoopI]
    rw [if_pos (by simp [isEmpty, hemp])]
  | succ fuel ih =>
    intro dq hWF hfuel helem hmono
    by_cases hemp : dq.size = 0
    · have hnil : contents dq = [] := contents_eq_nil_of_size hWF hemp
      refine ⟨dq, [], ?_, hWF, rfl, ⟨[], by simp, by simp⟩, by rw [hnil]; simp,
        by simp [popsOf], rfl, le_refl _, le_refl _⟩
      simp only [evictLoopI]
      rw [if_pos (by simp [isEmpty, hemp])]
    · have hpos : 0 < dq.size := by
        obtain ⟨_, _, hs, _, _⟩ := hWF
        omega
      have hne : contents dq ≠ [] := by
        have hl := length_contents hWF
        intro h
        rw [h] at hl
        simp at hl
        omega
      have hbk := back_eq hWF hne
      have hlastmem : (contents dq).getLast hne ∈ contents dq := List.getLast_mem hne
      obtain ⟨hb0, hbn⟩ := helem _ hlastmem
      have hrb : readNums nums ((contents dq).getLast hne) =
          some (valAt nums ((contents dq).getLast hne)) := readNums_eq hb0 (by omega)
      have hri : readNums nums (i : Int) = some (valAt nums (i : Int)) :=
        readNums_eq (by omega) (by simpa using hi)
      have hcp := contents_popBack hWF
      simp only [evictLoopI]
      rw [if_neg (by simp [isEmpty, hemp])]
      simp only [hbk, hrb, hri]
      by_cases hlt : valAt nums ((contents dq).getLast hne) < valAt nums (i : Int)
      · have hWFp := wf_popBack hWF hpos
        have hfuelp : ((popBack dq).rear + 1).toNat ≤ fuel := by
          simp only [popBack]
          obtain ⟨hn, hf, hs, hr, hlt2⟩ := hWF
          omega
        have helemp : ∀ d ∈ contents (popBack dq), 0 ≤ d ∧ d < (nums.length : Int) := by
          intro d hd
          rw [hcp] at hd
          exact helem d ((List.dropLast_sublist _).subset hd)
        have hmonop : List.Pairwise (fun a b => valAt nums b ≤ valAt nums a)
            (contents (popBack dq)) := by
          rw [hcp]
          exact List.Pairwise.sublist (List.dropLast_sublist _) hmono
        obtain ⟨dq'', ops, hrun, hWF'', hfr'', ⟨rest, hsplit, hrestlt⟩, hsurv, hperm,
          hpushnil, hsz, hrr⟩ := ih (popBack dq) hWFp hfuelp helemp hmonop
        rw [hcp] at hsplit hperm
        refine ⟨dq'', DqOp.popB ((contents dq).getLast hne) :: ops, ?_, hWF'', hfr'',
          ?_, hsurv, ?_, ?_, ?_, ?_⟩
        · simp [hlt, hrun]
        · refine ⟨rest ++ [(contents dq).getLast hne], ?_, ?_⟩
          · rw [← List.append_assoc, ← hsplit, List.dropLast_append_getLast hne]
          · intro b hb
            rcases List.mem_append.mp hb with h | h
            · exact hrestlt b h
            · rw [List.mem_singleton.mp h]
              exact hlt
        · show ((contents dq).getLast hne :: (popsOf ops ++ contents dq'')).Perm
            (contents dq)
          have h3 := hperm.cons ((contents dq).getLast hne)
          have h4 : ((contents dq).getLast hne :: (contents dq).dropLast).Perm
              (contents dq) := by
            have h5 := List.perm_append_singleton ((contents dq).getLast hne)
              (contents dq).dropLast
            rw [List.dropLast_append_getLast hne] at h5
            exact h5.symm
          exact h3.trans h4
        · exact hpushnil
        · simp only [popBack] at hsz
          omega
        · simp only [popBack] at hrr
          omega
      · refine ⟨dq, [], by simp [hlt], hWF, rfl, ⟨[], by simp, by simp⟩, ?_,
          by simp [popsOf], rfl, le_refl _, le_refl _⟩
        intro a ha
        rcases pairwise_getLast hne hmono a ha with h | h
        · rw [h]
          omega
        · have hvi : valAt nums (i : Int) ≤ valAt nums ((contents dq).getLast hne) := by
            omega
          exact le_trans hvi h

theorem evictDominatedI_ok {n : Nat} {nums : List Int} {i : Nat} {dq : Deque}
    (hi : i < nums.length) (hWF : WF n dq)
    (helem : ∀ d ∈ contents dq, 0 ≤ d ∧ d < (nums.length : Int))
    (hmono : List.Pairwise (fun a b => valAt nums b ≤ valAt nums a) (contents dq)) :
    ∃ dq' ops, evictDominatedI nums i dq = some (dq', ops) ∧ WF n dq' ∧
      dq'.front = dq.front ∧
      (∃ rest, contents dq = contents dq' ++ rest ∧
        ∀ b ∈ rest, valAt nums b < valAt nums (i : Int)) ∧
      (∀ a ∈ contents dq', valAt nums (i : Int) ≤ valAt nums a) ∧
      (popsOf ops ++ contents dq').Perm (contents dq) ∧
      pushesOf ops = [] ∧ dq'.front + dq'.size ≤ dq.front + dq.size ∧
      dq'.rear ≤ dq.rear :=
  evictLoopI_ok nums i hi _ dq hWF (le_refl _) helem hmono

/-! ### The emitted value is the window maximum -/

theorem emitted_is_max (nums : List Int) (k : Nat) (hk1 : 1 ≤ k) (m : Nat)
    (hm : m < nums.length) (hkm : k ≤ m + 1) (q3 : List Int) (hne : q3 ≠ [])
    (hrange3 : ∀ d ∈ q3, 0 ≤ d ∧ (m : Int) - k < d ∧ d ≤ (m : Int))
    (hmono3 : List.Pairwise (fun a b => valAt nums b ≤ valAt nums a) q3)
    (hcover3 : ∀ j : Nat, (m : Int) - k < (j : Int) → j ≤ m →
      ∃ d ∈ q3, (j : Int) ≤ d ∧ valAt nums (j : Int) ≤ valAt nums d) :
    valAt nums (q3.head hne) = listMax (List.take k (List.drop (m + 1 - k) nums)) := by
  have hlenW : (List.take k (List.drop (m + 1 - k) nums)).length = k := by
    simp only [List.length_take, List.length_drop]
    omega
  have hWne : List.take k (List.drop (m + 1 - k) nums) ≠ [] := by
    intro h
    rw [h] at hlenW
    simp at hlenW
    omega
  obtain ⟨h00, h0lo, h0hi⟩ := hrange3 _ (List.head_mem hne)
  have h0N1 : m + 1 - k ≤ (q3.head hne).toNat := by omega
  have h0N2 : (q3.head hne).toNat ≤ m := by omega
  apply le_antisymm
  · apply le_listMax
    rw [List.mem_iff_getElem]
    refine ⟨(q3.head hne).toNat - (m + 1 - k), by omega, ?_⟩
    rw [List.getElem_take, List.getElem_drop]
    rw [valAt, List.getD_eq_getElem _ _ (by omega : (q3.head hne).toNat < nums.length)]
    congr 1
    omega
  · obtain ⟨t, ht, hWt⟩ := List.mem_iff_getElem.mp (listMax_mem hWne)
    rw [List.getElem_take, List.getElem_drop] at hWt
    rw [hlenW] at ht
    obtain ⟨d, hd, hjd, hjv⟩ := hcover3 (m + 1 - k + t) (by omega) (by omega)
    have hbound : m + 1 - k + t < nums.length := by omega
    have hvd : valAt nums (↑(m + 1 - k + t)) = nums[m + 1 - k + t] := by
      rw [valAt]
      have hnn : ((m + 1 - k + t : Nat) : Int).toNat = m + 1 - k + t := by omega
      rw [hnn, List.getD_eq_getElem _ _ (by omega)]
    rcases pairwise_head hne hmono3 d hd with h | h
    · rw [← hWt, ← hvd, ← h]
      exact hjv
    · rw [← hWt, ← hvd]
      exact le_trans hjv h

/-! ### Log bookkeeping -/

theorem pushesOf_append (l1 l2 : List DqOp) :
    pushesOf (l1 ++ l2) = pushesOf l1 ++ pushesOf l2 :=
  List.filterMap_append _ _ _

theorem popsOf_append (l1 l2 : List DqOp) :
    popsOf (l1 ++ l2) = popsOf l1 ++ popsOf l2 :=
  List.filterMap_append _ _ _

/-! ### One full scan step preserves the invariant -/

theorem swmStepI_ok (nums : List Int) (k : Nat) (hk1 : 1 ≤ k) (m : Nat)
    (hm : m < nums.length) (dq : Deque) (out : List Int) (log : List DqOp)
    (hInv : ScanInv nums k m dq out log) :
    ∃ dq' out' ops, swmStepI nums (k : Int) m (dq, out) = some ((dq', out'), ops) ∧
      ScanInv nums k (m + 1) dq' out' (log ++ ops) := by
  obtain ⟨hWF, hsize, hne0, hrange, hsorted, hmono, hcover, hout, hpush, hops⟩ := hInv
  obtain ⟨dq1, ops1, hrun1, hWF1, hsub1, hpost1, hkeep1, hperm1, hpushnil1, hsz1, hrr1⟩ :=
    expireStepI_ok hWF hsorted (fun d hd => (hrange d hd).2.1)
  have helem1 : ∀ d ∈ contents dq1, 0 ≤ d ∧ d < (nums.length : Int) := by
    intro d hd
    obtain ⟨h1, h2, h3⟩ := hrange d (hsub1.subset hd)
    exact ⟨h1, by omega⟩
  obtain ⟨dq2, ops2, hrun2, hWF2, hfr2, ⟨rest2, hsplit2, hrest2⟩, hsurv2, hperm2,
    hpushnil2, hsz2, hrr2⟩ := evictDominatedI_ok hm hWF1 helem1 (hmono.sublist hsub1)
  have hroom : dq2.rear + 1 < (nums.length : Int) := by
    obtain ⟨hn2, hf2, hs2, hr2, hlt2⟩ := hWF2
    omega
  obtain ⟨dq3, hrun3, hWF3, hc3, hfr3, hsize3, hrear3⟩ := pushBack_ok hWF2 hroom (m : Int)
  have hq2subl : (contents dq2).Sublist (contents dq1) := by
    rw [hsplit2]
    exact List.sublist_append_left _ _
  have hq2sub : ∀ d ∈ contents dq2, d ∈ contents dq1 := fun d hd => hq2subl.subset hd
  have hrange1 : ∀ d ∈ contents dq1, 0 ≤ d ∧ (m : Int) - k < d ∧ d < (m : Int) := by
    intro d hd
    obtain ⟨h1, h2, h3⟩ := hrange d (hsub1.subset hd)
    exact ⟨h1, hpost1 d hd, h3⟩
  have hrange3 : ∀ d ∈ contents dq3, 0 ≤ d ∧ (m : Int) - k < d ∧ d ≤ (m : Int) := by
    intro d hd
    rw [hc3] at hd
    rcases List.mem_append.mp hd with h | h
    · obtain ⟨h1, h2, h3⟩ := hrange1 d (hq2sub d h)
      exact ⟨h1, h2, by omega⟩
    · rw [List.mem_singleton.mp h]
      refine ⟨by omega, by omega, le_refl _⟩
  have hne3 : contents dq3 ≠ [] := by
    rw [hc3]
    simp
  have hsorted3 : List.Pairwise (fun a b => a < b) (contents dq3) := by
    rw [hc3]
    refine List.pairwise_append.mpr ⟨(hsorted.sublist hsub1).sublist hq2subl, by simp, ?_⟩
    intro a ha b hb
    rw [List.mem_singleton.mp hb]
    exact (hrange1 a (hq2sub a ha)).2.2
  have hmono3 : List.Pairwise (fun a b => valAt nums b ≤ valAt nums a) (contents dq3) := by
    rw [hc3]
    refine List.pairwise_append.mpr ⟨(hmono.sublist hsub1).sublist hq2subl, by simp, ?_⟩
    intro a ha b hb
    rw [List.mem_singleton.mp hb]
    exact hsurv2 a ha
  have hcov3 : ∀ j : Nat, ((m + 1 : Nat) : Int) - k ≤ (j : Int) → j < m + 1 →
      ∃ d ∈ contents dq3, (j : Int) ≤ d ∧ valAt nums (j : Int) ≤ valAt nums d := by
    intro j hj1 hj2
    by_cases hjm : j = m
    · subst hjm
      exact ⟨(j : Int), by rw [hc3]; exact List.mem_append_right _ (by simp),
        le_refl _, le_refl _⟩
    · have hjm' : j < m := by omega
      have hjlo : (m : Int) - k ≤ (j : Int) := by
        push_cast at hj1
        omega
      obtain ⟨d, hd, hjd, hjv⟩ := hcover j hjlo hjm'
      have hd1 : d ∈ contents dq1 := by
        apply hkeep1 d hd
        push_cast at hj1
        omega
      rw [hsplit2] at hd1
      rcases List.mem_append.mp hd1 with h | h
      · exact ⟨d, by rw [hc3]; exact List.mem_append_left _ h, hjd, hjv⟩
      · refine ⟨(m : Int), by rw [hc3]; exact List.mem_append_right _ (by simp),
          by omega, ?_⟩
        exact le_trans hjv (le_of_lt (hrest2 d h))
  have hopsGoal : ∀ finalOps : List DqOp, popsOf finalOps = popsOf ops1 ++ popsOf ops2 →
      pushesOf finalOps = [] →
      ((popsOf (log ++ (finalOps ++ [DqOp.push (m : Int)])) : Multiset Int) +
        (contents dq3 : Multiset Int) =
        (pushesOf (log ++ (finalOps ++ [DqOp.push (m : Int)])) : Multiset Int)) := by
    intro finalOps hpo hpu
    have e1 : ((popsOf ops1 : Multiset Int) + (contents dq1 : Multiset Int)) =
        (contents dq : Multiset Int) := by
      rw [Multiset.coe_add]
      exact Multiset.coe_eq_coe.mpr hperm1
    have e2 : ((popsOf ops2 : Multiset Int) + (contents dq2 : Multiset Int)) =
        (contents dq1 : Multiset Int) := by
      rw [Multiset.coe_add]
      exact Multiset.coe_eq_coe.mpr hperm2
    rw [popsOf_append, pushesOf_append, popsOf_append, pushesOf_append, hpo, hpu, hc3]
    rw [show popsOf [DqOp.push (m : Int)] = [] from rfl]
    rw [show pushesOf [DqOp.push (m : Int)] = [(m : Int)] from rfl]
    simp only [List.append_nil, List.nil_append, ← Multiset.coe_add]
    rw [← hops, ← e1, ← e2]
    simp only [add_assoc, add_comm, add_left_comm]
  by_cases hemit : ((m : Int) ≥ (k : Int) - 1)
  · have hkm : k ≤ m + 1 := by omega
    have hfr := front_eq hWF3 hne3
    obtain ⟨h00, h0lo, h0hi⟩ := hrange3 _ (List.head_mem hne3)
    have hread0 : readNums nums ((contents dq3).head hne3) =
        some (valAt nums ((contents dq3).head hne3)) := readNums_eq h00 (by omega)
    have hemitrun : emitStep nums (k : Int) m dq3 out =
        some (out ++ [valAt nums ((contents dq3).head hne3)]) := by
      rw [emitStep, if_pos hemit]
      simp only [hfr, hread0]
    have hcov3' : ∀ j : Nat, (m : Int) - k < (j : Int) → j ≤ m →
        ∃ d ∈ contents dq3, (j : Int) ≤ d ∧ valAt nums (j : Int) ≤ valAt nums d := by
      intro j h1 h2
      exact hcov3 j (by push_cast; omega) (by omega)
    have hval := emitted_is_max nums k hk1 m hm hkm (contents dq3) hne3 hrange3
      hmono3 hcov3'
    refine ⟨dq3, out ++ [valAt nums ((contents dq3).head hne3)],
      ops1 ++ ops2 ++ [DqOp.push (m : Int)], ?_, ?_⟩
    · simp only [swmStepI, hrun1, hrun2, hrun3, hemitrun]
    · refine ⟨hWF3, ?_, fun _ => hne3, ?_, hsorted3, hmono3, hcov3, ?_, ?_, ?_⟩
      · push_cast
        omega
      · intro d hd
        obtain ⟨h1, h2, h3⟩ := hrange3 d hd
        refine ⟨h1, by push_cast at h2 ⊢; omega, by push_cast at h3 ⊢; omega⟩
      · rw [hout]
        have hc : (m + 1) + 1 - k = (m + 1 - k) + 1 := by omega
        rw [hc, List.range_succ, List.map_append]
        simp only [List.map_cons, List.map_nil]
        rw [hval]
      · rw [pushesOf_append, pushesOf_append, pushesOf_append, hpush, hpushnil1,
          hpushnil2]
        rw [show pushesOf [DqOp.push (m : Int)] = [(m : Int)] from rfl]
        rw [List.range_succ, List.map_append]
        simp
      · apply hopsGoal (ops1 ++ ops2)
        · rw [popsOf_append]
        · rw [pushesOf_append, hpushnil1, hpushnil2]
          simp
  · have hemitrun : emitStep nums (k : Int) m dq3 out = some out := by
      rw [emitStep, if_neg hemit]
    refine ⟨dq3, out, ops1 ++ ops2 ++ [DqOp.push (m : Int)], ?_, ?_⟩
    · simp only [swmStepI, hrun1, hrun2, hrun3, hemitrun]
    · refine ⟨hWF3, ?_, fun _ => hne3, ?_, hsorted3, hmono3, hcov3, ?_, ?_, ?_⟩
      · push_cast
        omega
      · intro d hd
        obtain ⟨h1, h2, h3⟩ := hrange3 d hd
        refine ⟨h1, by push_cast at h2 ⊢; omega, by push_cast at h3 ⊢; omega⟩
      · rw [hout]
        have hz1 : m + 1 - k = 0 := by omega
        have hz2 : (m + 1) + 1 - k = 0 := by omega
        rw [hz1, hz2]
      · rw [pushesOf_append, pushesOf_append, pushesOf_append, hpush, hpushnil1,
          hpushnil2]
        rw [show pushesOf [DqOp.push (m : Int)] = [(m : Int)] from rfl]
        rw [List.range_succ, List.map_append]
        simp
      · apply hopsGoal (ops1 ++ ops2)
        · rw [popsOf_append]
        · rw [pushesOf_append, hpushnil1, hpushnil2]
          simp

/-! ### The master invariant: the whole scan succeeds and is invariant-preserving -/

theorem scanInv_init (nums : List Int) (k : Nat) (hk1 : 1 ≤ k) :
    ScanInv nums k 0 (createDeque nums.length) [] [] := by
  refine ⟨wf_createDeque _, ?_, by omega, ?_, ?_, ?_, ?_, ?_, rfl, ?_⟩
  · simp [createDeque]
  · rw [contents_createDeque]
    intro d hd
    simp at hd
  · rw [contents_createDeque]
    exact List.Pairwise.nil
  · rw [contents_createDeque]
    exact List.Pairwise.nil
  · intro j _ hj
    omega
  · have hz : 0 + 1 - k = 0 := by omega
    rw [hz]
    simp
  · rw [contents_createDeque]
    simp [popsOf, pushesOf]

theorem swmAuxI_inv (nums : List Int) (k : Nat) (hk1 : 1 ≤ k) :
    ∀ (m : Nat), m ≤ nums.length →
      ∃ dq out opsLog, swmAuxI nums (k : Int) 0 m (createDeque nums.length, []) [] =
        some ((dq, out), opsLog) ∧ ScanInv nums k m dq out opsLog := by
  have key : ∀ (c : Nat) (m : Nat) (dq : Deque) (out : List Int) (log : List DqOp),
      m + c ≤ nums.length → ScanInv nums k m dq out log →
      ∃ dq' out' log', swmAuxI nums (k : Int) m c (dq, out) log =
        some ((dq', out'), log') ∧ ScanInv nums k (m + c) dq' out' log' := by
    intro c
    induction c with
    | zero =>
      intro m dq out log hle hInv
      exact ⟨dq, out, log, rfl, hInv⟩
    | succ c ih =>
      intro m dq out log hle hInv
      obtain ⟨dq1, out1, ops, hstep, hInv1⟩ :=
        swmStepI_ok nums k hk1 m (by omega) dq out log hInv
      obtain ⟨dq', out', log', hrun, hInv'⟩ :=
        ih (m + 1) dq1 out1 (log ++ ops) (by omega) hInv1
      have hInv'' : ScanInv nums k (m + (c + 1)) dq' out' log' := by
        rw [show m + (c + 1) = (m + 1) + c from by omega]
        exact hInv'
      refine ⟨dq', out', log', ?_, hInv''⟩
      simp only [swmAuxI, hstep]
      exact hrun
  intro m hm
  obtain ⟨dq', out', log', hrun, hInv'⟩ :=
    key m 0 (createDeque nums.length) [] [] (by omega) (scanInv_init nums k hk1)
  exact ⟨dq', out', log', hrun, by simpa using hInv'⟩

/-! ### The instrumented scan projects to the plain scan -/

theorem expireStep_proj (k : Int) (i : Nat) (dq : Deque) :
    expireStep k i dq = (expireStepI k i dq).map Prod.fst := by
  rw [expireStep, expireStepI]
  by_cases h : isEmpty dq
  · rw [if_pos h, if_pos h]
    rfl
  · rw [if_neg h, if_neg h]
    rcases hfr : front dq with _ | f
    · rfl
    · dsimp only
      by_cases hf : f ≤ (i : Int) - k
      · rw [if_pos hf, if_pos hf]
        rfl
      · rw [if_neg hf, if_neg hf]
        rfl

theorem evictLoop_proj (nums : List Int) (i : Nat) :
    ∀ (fuel : Nat) (dq : Deque),
      evictLoop nums i fuel dq = (evictLoopI nums i fuel dq).map Prod.fst := by
  intro fuel
  induction fuel with
  | zero =>
    intro dq
    simp only [evictLoop, evictLoopI]
    by_cases h : isEmpty dq
    · rw [if_pos h, if_pos h]
      rfl
    · rw [if_neg h, if_neg h]
      rfl
  | succ fuel ih =>
    intro dq
    simp only [evictLoop, evictLoopI]
    by_cases h : isEmpty dq
    · rw [if_pos h, if_pos h]
      rfl
    · rw [if_neg h, if_neg h]
      rcases hbk : back dq with _ | b
      · rfl
      · dsimp only
        rcases hrb : readNums nums b with _ | vb
        · rfl
        · rcases hri : readNums nums (i : Int) with _ | vi
          · rfl
          · dsimp only
            by_cases hlt : vb < vi
            · rw [if_pos hlt, if_pos hlt, ih (popBack dq)]
              rcases evictLoopI nums i fuel (popBack dq) with _ | p
              · rfl
              · obtain ⟨dq', ops⟩ := p
                rfl
            · rw [if_neg hlt, if_neg hlt]
              rfl

theorem evictDominated_proj (nums : List Int) (i : Nat) (dq : Deque) :
    evictDominated nums i dq = (evictDominatedI nums i dq).map Prod.fst := by
  rw [evictDominated, evictDominatedI, evictLoop_proj]

theorem swmStep_proj (nums : List Int) (k : Int) (i : Nat) (st : Deque × List Int) :
    swmStep nums k i st = (swmStepI nums k i st).map Prod.fst := by
  rw [swmStep, swmStepI, expireStep_proj]
  rcases expireStepI k i st.1 with _ | ⟨dq1, ops1⟩
  · rfl
  · rw [Option.map_some']
    dsimp only
    rw [evictDominated_proj]
    rcases evictDominatedI nums i dq1 with _ | ⟨dq2, ops2⟩
    · rfl
    · rw [Option.map_some']
      dsimp only
      rcases pushBack dq2 (i : Int) with _ | dq3
      · rfl
      · dsimp only
        rcases emitStep nums k i dq3 st.2 with _ | o
        · rfl
        · rfl

theorem swmAux_proj (nums : List Int) (k : Int) :
    ∀ (c i : Nat) (st : Deque × List Int) (log : List DqOp),
      swmAux nums k i c st = (swmAuxI nums k i c st log).map Prod.fst := by
  intro c
  induction c with
  | zero =>
    intro i st log
    rfl
  | succ c ih =>
    intro i st log
    simp only [swmAux, swmAuxI]
    rw [swmStep_proj]
    rcases swmStepI nums k i st with _ | ⟨st', ops⟩
    · rfl
    · dsimp only
      exact ih (i + 1) st' (log ++ ops)

/-! ### The scan meets its specification -/

theorem swm_spec (nums : List Int) (k : Nat) (hk1 : 1 ≤ k) :
    slidingWindowMaximum nums (k : Int) = some (specOut nums k) := by
  obtain ⟨dq, out, log, hrun, hInv⟩ := swmAuxI_inv nums k hk1 nums.length (le_refl _)
  have hproj := swmAux_proj nums (k : Int) nums.length 0 (createDeque nums.length, []) []
  rw [hrun, Option.map_some'] at hproj
  rw [slidingWindowMaximum, hproj]
  rw [hInv.hout]
  rfl

theorem specOut_one (nums : List Int) : specOut nums 1 = nums := by
  apply List.ext_getElem
  · simp [specOut]
  · intro t h1 h2
    simp only [specOut, List.getElem_map, List.getElem_range]
    have htake : List.take 1 (List.drop t nums) = [nums[t]] := by
      rw [List.drop_eq_getElem_cons h2]
      rfl
    rw [htake]
    rfl

theorem specOut_full (nums : List Int) :
    specOut nums nums.length = [listMax nums] := by
  rw [specOut]
  have h1 : nums.length + 1 - nums.length = 1 := by omega
  rw [h1, List.range_succ, List.range_zero]
  simp

theorem length_eq_pushes_add_pops (log : List DqOp) :
    log.length = (pushesOf log).length + (popsOf log).length := by
  induction log with
  | nil => rfl
  | cons op rest ih =>
    cases op with
    | push v =>
      rw [List.length_cons, show pushesOf (DqOp.push v :: rest) = v :: pushesOf rest
        from rfl, show popsOf (DqOp.push v :: rest) = popsOf rest from rfl,
        List.length_cons]
      omega
    | popF v =>
      rw [List.length_cons, show pushesOf (DqOp.popF v :: rest) = pushesOf rest
        from rfl, show popsOf (DqOp.popF v :: rest) = v :: popsOf rest from rfl,
        List.length_cons]
      omega
    | popB v =>
      rw [List.length_cons, show pushesOf (DqOp.popB v :: rest) = pushesOf rest
        from rfl, show popsOf (DqOp.popB v :: rest) = v :: popsOf rest from rfl,
        List.length_cons]
      omega

theorem evictLoop_keeps {n : Nat} (nums : List Int) (i : Nat) (d vi vd : Int)
    (hvi : readNums nums (i : Int) = some vi) (hvd : readNums nums d = some vd)
    (hge : vi ≤ vd) :
    ∀ (fuel : Nat) (dq dq' : Deque), WF n dq →
      evictLoop nums i fuel dq = some dq' → d ∈ contents dq → d ∈ contents dq' := by
  intro fuel
  induction fuel with
  | zero =>
    intro dq dq' hWF hrun hd
    simp only [evictLoop] at hrun
    by_cases h : isEmpty dq
    · rw [if_pos h] at hrun
      injection hrun with h'
      rw [← h']
      exact hd
    · rw [if_neg h] at hrun
      exact absurd hrun (by simp)
  | succ fuel ih =>
    intro dq dq' hWF hrun hd
    simp only [evictLoop] at hrun
    by_cases h : isEmpty dq
    · rw [if_pos h] at hrun
      injection hrun with h'
      rw [← h']
      exact hd
    · rw [if_neg h] at hrun
      have hpos : 0 < dq.size := by
        obtain ⟨_, _, hs, _, _⟩ := hWF
        simp [isEmpty] at h
        omega
      have hne : contents dq ≠ [] := by
        intro hc
        have hl := length_contents hWF
        rw [hc] at hl
        simp at hl
        omega
      rw [back_eq hWF hne] at hrun
      dsimp only at hrun
      rcases hrb : readNums nums ((contents dq).getLast hne) with _ | vb
      · rw [hrb] at hrun
        exact absurd hrun (by simp)
      · rw [hrb, hvi] at hrun
        dsimp only at hrun
        by_cases hlt : vb < vi
        · rw [if_pos hlt] at hrun
          have hdecomp := List.dropLast_append_getLast hne
          rw [← hdecomp] at hd
          rcases List.mem_append.mp hd with hmem | hmem
          · apply ih (popBack dq) dq' (wf_popBack hWF hpos) hrun
            rw [contents_popBack hWF]
            exact hmem
          · have hdl : d = (contents dq).getLast hne := by simpa using hmem
            rw [← hdl] at hrb
            rw [hrb] at hvd
            injection hvd with hvd'
            omega
        · rw [if_neg hlt] at hrun
          injection hrun with h'
          rw [← h']
          exact hd

/-! ### The claims -/

/-- Claim C1: for every integer sequence `nums` of length n and window size k
with 1 ≤ k ≤ n, the scan is memory safe and emits exactly n - k + 1 integers,
the j-th emitted value (0-indexed) being the maximum of nums[j .. j+k-1]. -/
theorem swm_correct (nums : List Int) (k : Nat) (hk1 : 1 ≤ k)
    (hk2 : k ≤ nums.length) :
    slidingWindowMaximum nums (k : Int) = some (specOut nums k) ∧
      (specOut nums k).length = nums.length - k + 1 ∧
      ∀ j, j < nums.length - k + 1 →
        (specOut nums k).getD j 0 = listMax (List.take k (List.drop j nums)) ∧
        listMax (List.take k (List.drop j nums)) ∈ List.take k (List.drop j nums) ∧
        ∀ x ∈ List.take k (List.drop j nums), x ≤ listMax (List.take k (List.drop j nums)) := by
  refine ⟨swm_spec nums k hk1, ?_, ?_⟩
  · simp only [specOut, List.length_map, List.length_range]
    omega
  · intro j hj
    have hlw : (List.take k (List.drop j nums)).length = k := by
      simp only [List.length_take, List.length_drop]
      omega
    have hwne : List.take k (List.drop j nums) ≠ [] := by
      intro hc
      rw [hc] at hlw
      simp at hlw
      omega
    refine ⟨?_, listMax_mem hwne, fun x hx => le_listMax hx⟩
    have hj' : j < nums.length + 1 - k := by omega
    rw [specOut, List.getD_eq_getElem _ _ (by simpa using hj')]
    simp

theorem swm_correct_witness :
    slidingWindowMaximum [1, 3, -1, -3, 5, 3, 6, 7] ((3 : Nat) : Int) =
      some (specOut [1, 3, -1, -3, 5, 3, 6, 7] 3) ∧
      specOut [1, 3, -1, -3, 5, 3, 6, 7] 3 = [3, 3, 5, 5, 6, 7] :=
  ⟨(swm_correct [1, 3, -1, -3, 5, 3, 6, 7] 3 (by decide) (by decide)).1, by decide⟩

/-- Claim C2 is refuted by the code: `slidingWindowMaximum` performs no
validation of k at all.  With k = 0 < 1 the scan still runs and emits a value
for every position, and with k = 3 > n = 2 it silently emits nothing; no
error of any kind is signalled in either case (the checked model returns
`some`, meaning the C code runs to completion without even an out-of-bounds
access). -/
theorem swm_no_k_validation :
    slidingWindowMaximum [7] 0 = some [7] ∧
      slidingWindowMaximum [1, 2] 3 = some [] := by
  constructor
  · decide
  · decide

/-- Claim C3 is refuted by the code: with n = 0 the scan silently produces no
output and signals no error — there is no EmptyInput (nor any other) error
anywhere in the program. -/
theorem swm_no_empty_validation : slidingWindowMaximum [] 1 = some [] := by
  decide

/-- Claim C4: for a valid window size, after the per-position steps for
position i complete, every index stored in the deque lies in the window
range i - k + 1 .. i; in particular no expired index (≤ i - k) remains. -/
theorem deque_window_range (nums : List Int) (k : Nat) (hk1 : 1 ≤ k)
    (hk2 : k ≤ nums.length) (i : Nat) (hi : i < nums.length) :
    ∃ dq out, swmAux nums (k : Int) 0 (i + 1) (createDeque nums.length, []) =
      some (dq, out) ∧
      ∀ d ∈ contents dq, (i : Int) - k + 1 ≤ d ∧ d ≤ (i : Int) := by
  obtain ⟨dq, out, log, hrun, hInv⟩ := swmAuxI_inv nums k hk1 (i + 1) (by omega)
  have hproj := swmAux_proj nums (k : Int) (i + 1) 0 (createDeque nums.length, []) []
  rw [hrun, Option.map_some'] at hproj
  refine ⟨dq, out, hproj, ?_⟩
  intro d hd
  obtain ⟨h1, h2, h3⟩ := hInv.hrange d hd
  push_cast at h2 h3
  omega

theorem deque_window_range_witness :
    ∃ dq out, swmAux [1, 3, 2] ((2 : Nat) : Int) 0 (1 + 1) (createDeque 3, []) =
      some (dq, out) ∧
      ∀ d ∈ contents dq, ((1 : Nat) : Int) - (2 : Nat) + 1 ≤ d ∧ d ≤ ((1 : Nat) : Int) := by
  have h := deque_window_range [1, 3, 2] 2 (by decide) (by decide) 1 (by decide)
  simpa using h

/-- Claim C5: for a valid window size, after every processed position the
values at the stored indices, read from the front of the deque to the back,
form a non-increasing sequence. -/
theorem deque_values_monotone (nums : List Int) (k : Nat) (hk1 : 1 ≤ k)
    (hk2 : k ≤ nums.length) (i : Nat) (hi : i < nums.length) :
    ∃ dq out, swmAux nums (k : Int) 0 (i + 1) (createDeque nums.length, []) =
      some (dq, out) ∧
      List.Pairwise (fun a b => b ≤ a) ((contents dq).map (valAt nums)) := by
  obtain ⟨dq, out, log, hrun, hInv⟩ := swmAuxI_inv nums k hk1 (i + 1) (by omega)
  have hproj := swmAux_proj nums (k : Int) (i + 1) 0 (createDeque nums.length, []) []
  rw [hrun, Option.map_some'] at hproj
  refine ⟨dq, out, hproj, ?_⟩
  rw [List.pairwise_map]
  exact hInv.hmono

theorem deque_values_monotone_witness :
    ∃ dq out, swmAux [5, 4, 6, 3] ((2 : Nat) : Int) 0 (2 + 1) (createDeque 4, []) =
      some (dq, out) ∧
      List.Pairwise (fun a b => b ≤ a) ((contents dq).map (valAt [5, 4, 6, 3])) := by
  have h := deque_values_monotone [5, 4, 6, 3] 2 (by decide) (by decide) 2 (by decide)
  simpa using h

/-- Claim C6: the dominated-eviction loop compares with strict less-than, so a
stored index whose value is greater than or equal to nums[i] — in particular
one whose value *equals* nums[i], i.e. is tied for the maximum — is never
evicted by `evictDominated`; such indices remain in the deque (and since the
emitted value is read through the front index, ties leave the emitted maximum
unchanged). -/
theorem evictDominated_keeps_ties {n : Nat} (nums : List Int) (i : Nat)
    (dq dq' : Deque) (d vi vd : Int) (hWF : WF n dq)
    (hrun : evictDominated nums i dq = some dq') (hd : d ∈ contents dq)
    (hvi : readNums nums (i : Int) = some vi) (hvd : readNums nums d = some vd)
    (hge : vi ≤ vd) : d ∈ contents dq' :=
  evictLoop_keeps nums i d vi vd hvi hvd hge _ dq dq' hWF hrun hd

theorem evictDominated_keeps_ties_witness :
    (0 : Int) ∈ contents { data := #[0, 0], front := 0, rear := 0, size := 1 } :=
  @evictDominated_keeps_ties 2 [5, 5] 1
    { data := #[0, 0], front := 0, rear := 0, size := 1 }
    { data := #[0, 0], front := 0, rear := 0, size := 1 } 0 5 5
    ⟨by decide, by decide, by decide, by decide, by decide⟩
    (by decide) (by decide) (by decide) (by decide) (by decide)

/-- Claim C7: instrumenting the scan with its log of deque operations (the
instrumented scan projects onto the plain one, so the log faithfully describes
the real run), each index 0 .. n-1 is pushed exactly once — the pushed indices
are exactly 0, 1, …, n-1 in order — every pop (front or back) removes a
previously pushed index and no index is popped more than once (the popped
indices form a sub-multiset of the pushed ones), and the total number of deque
operations is at most 2n. -/
theorem swm_ops_bound (nums : List Int) (k : Nat) (hk1 : 1 ≤ k)
    (hk2 : k ≤ nums.length) :
    ∃ dq out log,
      swmAuxI nums (k : Int) 0 nums.length (createDeque nums.length, []) [] =
        some ((dq, out), log) ∧
      swmAux nums (k : Int) 0 nums.length (createDeque nums.length, []) =
        some (dq, out) ∧
      pushesOf log = (List.range nums.length).map (fun j : Nat => (j : Int)) ∧
      (popsOf log : Multiset Int) ≤ (pushesOf log : Multiset Int) ∧
      log.length ≤ 2 * nums.length := by
  obtain ⟨dq, out, log, hrun, hInv⟩ := swmAuxI_inv nums k hk1 nums.length (le_refl _)
  have hproj := swmAux_proj nums (k : Int) nums.length 0 (createDeque nums.length, []) []
  rw [hrun, Option.map_some'] at hproj
  have hle : (popsOf log : Multiset Int) ≤ (pushesOf log : Multiset Int) :=
    Multiset.le_iff_exists_add.mpr ⟨(contents dq : Multiset Int), hInv.hops.symm⟩
  refine ⟨dq, out, log, hrun, hproj, hInv.hpush, hle, ?_⟩
  have hcard := Multiset.card_le_card hle
  simp only [Multiset.coe_card] at hcard
  have hlenpush : (pushesOf log).length = nums.length := by
    rw [hInv.hpush, List.length_map, List.length_range]
  have := length_eq_pushes_add_pops log
  omega

theorem swm_ops_bound_witness :
    ∃ dq out log,
      swmAuxI [4, 2, 9] ((2 : Nat) : Int) 0 (List.length [4, 2, 9])
        (createDeque (List.length [4, 2, 9]), []) [] = some ((dq, out), log) ∧
      swmAux [4, 2, 9] ((2 : Nat) : Int) 0 (List.length [4, 2, 9])
        (createDeque (List.length [4, 2, 9]), []) = some (dq, out) ∧
      pushesOf log = (List.range (List.length [4, 2, 9])).map (fun j : Nat => (j : Int)) ∧
      (popsOf log : Multiset Int) ≤ (pushesOf log : Multiset Int) ∧
      log.length ≤ 2 * List.length [4, 2, 9] :=
  swm_ops_bound [4, 2, 9] 2 (by decide) (by decide)

/-- Claim C8: with window size k = 1 the scan reproduces the input sequence
unchanged. -/
theorem swm_k_one_identity (nums : List Int) (h : 1 ≤ nums.length) :
    slidingWindowMaximum nums 1 = some nums := by
  have hs := swm_spec nums 1 (le_refl _)
  rw [Nat.cast_one, specOut_one] at hs
  exact hs

theorem swm_k_one_identity_witness :
    slidingWindowMaximum [4, 7, 2] 1 = some [4, 7, 2] :=
  swm_k_one_identity [4, 7, 2] (by decide)

/-- Claim C9: with window size k = n the scan emits exactly one value, the
maximum of the whole sequence (`listMax` is the maximum: it is an element of
the sequence and bounds every element). -/
theorem swm_k_full_max (nums : List Int) (h : 1 ≤ nums.length) :
    slidingWindowMaximum nums (nums.length : Int) = some [listMax nums] ∧
      listMax nums ∈ nums ∧ ∀ x ∈ nums, x ≤ listMax nums := by
  have hne : nums ≠ [] := by
    intro hc
    rw [hc] at h
    simp at h
  have hs := swm_spec nums nums.length h
  rw [specOut_full] at hs
  exact ⟨hs, listMax_mem hne, fun x hx => le_listMax hx⟩

theorem swm_k_full_max_witness :
    slidingWindowMaximum [3, 9, 4] ((List.length [3, 9, 4] : Nat) : Int) =
      some [listMax [3, 9, 4]] ∧
      listMax [3, 9, 4] ∈ [3, 9, 4] ∧ ∀ x ∈ [3, 9, 4], x ≤ listMax [3, 9, 4] :=
  swm_k_full_max [3, 9, 4] (by decide)

/-- Claim C10: for every valid input (1 ≤ k ≤ n), every access to the deque's
backing array is in bounds: the checked scan (in which an out-of-bounds read
or write yields `none`) returns `some`; after every prefix of the scan the
deque is well formed — cursors consistent, `rear < n`, so the next push stays
within the capacity-n array — and after each step's trailing push the deque is
non-empty, so the emit-time `front` read is of a live element. -/
theorem swm_memory_safety (nums : List Int) (k : Nat) (hk1 : 1 ≤ k)
    (hk2 : k ≤ nums.length) :
    (∃ res, slidingWindowMaximum nums (k : Int) = some res) ∧
      ∀ m, m ≤ nums.length →
        ∃ dq out, swmAux nums (k : Int) 0 m (createDeque nums.length, []) =
          some (dq, out) ∧ WF nums.length dq ∧ (0 < m → 0 < dq.size) := by
  refine ⟨⟨specOut nums k, swm_spec nums k hk1⟩, ?_⟩
  intro m hm
  obtain ⟨dq, out, log, hrun, hInv⟩ := swmAuxI_inv nums k hk1 m hm
  have hproj := swmAux_proj nums (k : Int) m 0 (createDeque nums.length, []) []
  rw [hrun, Option.map_some'] at hproj
  refine ⟨dq, out, hproj, hInv.wf, ?_⟩
  intro hmpos
  have hne := hInv.hne hmpos
  have hlc := length_contents hInv.wf
  have : (contents dq).length ≠ 0 := fun hc => hne (List.eq_nil_of_length_eq_zero hc)
  obtain ⟨_, _, hs, _, _⟩ := hInv.wf
  omega

theorem swm_memory_safety_witness :
    (∃ res, slidingWindowMaximum [2, 1] ((2 : Nat) : Int) = some res) ∧
      ∀ m, m ≤ List.length [2, 1] →
        ∃ dq out, swmAux [2, 1] ((2 : Nat) : Int) 0 m (createDeque (List.length [2, 1]), []) =
          some (dq, out) ∧ WF (List.length [2, 1]) dq ∧ (0 < m → 0 < dq.size) :=
  swm_memory_safety [2, 1] 2 (by decide) (by decide)
